import Mathlib

/-!
Verification of the gantz dataflow-graph code generator.

This file gives a shallow embedding of the codegen pipeline found in
`src/graph.rs` (the `codegen` module: `push_eval_steps`, `push_eval_fn`,
`input_expr`) and of the nested-graph adapter in
`gantz_core/src/graph/mod.rs` (`GraphNode`, its `Node::evaluator`
implementation, `graph_node_evaluator_signature`, and the manual
`Serialize`/`Deserialize` implementations), and proves properties of the
embedded definitions.

Modelling conventions:
* Node and edge identifiers are `Nat` (petgraph indices).
* `u32` port indices are `Nat` (only equality and list indexing are used,
  so no overflow behaviour is relevant).
* Rust panics (`expect`, out-of-bounds indexing, `unwrap_or_else` with
  an aborting closure) are modelled by returning `none`.
* petgraph stores incident edges of a node as a linked list with the most
  recently added edge at the head, so `edges_directed` and `neighbors`
  enumerate edges in reverse insertion order; `edgesOut`/`edgesIn` below
  reverse the insertion-ordered edge list accordingly.
* petgraph's `Dfs::next` pops a stack, skips already-discovered nodes,
  and on first discovery marks the node, pushes its not-yet-discovered
  successors and yields the node; `dfsLoop` mirrors this with explicit
  fuel (the fuel is sufficient, which is proved, never assumed).
-/

namespace Gantz

/-- Model of the `syn::Expr` values produced by the code generator:
the default-value expression, a plain variable reference block, a clone
block, and opaque node-generated expressions applied to arguments. -/
inductive Expr where
  | defaultVal : Expr
  | blockRef : String → Expr
  | blockClone : String → Expr
  | call : String → List Expr → Expr
deriving Repr

/-- Edge weight: `Edge { output, input }` from `src/graph.rs`. -/
structure Edge where
  output : Nat
  input : Nat
deriving Repr, DecidableEq

/-- One stored edge of the petgraph graph: endpoints plus weight. -/
structure GEdge where
  src : Nat
  dst : Nat
  w : Edge
deriving Repr, DecidableEq

/-- A node weight: the capability surface of the `Node` trait used by the
codegen in `src/graph.rs` (`n_inputs`, `n_outputs`, `expr`). -/
structure GNode where
  nInputs : Nat
  nOutputs : Nat
  exprFn : List Expr → Expr

/-- A gantz graph: node weights indexed by position, edges in insertion
order. -/
structure Graph where
  nodes : List GNode
  edges : List GEdge

/-- `edges_directed(v, Outgoing)`: outgoing edges of `v` in petgraph
enumeration order (reverse insertion order). -/
def edgesOut (g : Graph) (v : Nat) : List GEdge :=
  (g.edges.filter (fun e => e.src == v)).reverse

/-- `edges_directed(v, Incoming)`: incoming edges of `v` in petgraph
enumeration order (reverse insertion order). -/
def edgesIn (g : Graph) (v : Nat) : List GEdge :=
  (g.edges.filter (fun e => e.dst == v)).reverse

/-- `ExprInput` from `src/graph.rs`: a resolved argument slot. -/
structure ExprInput where
  node : Nat
  output : Nat
  requiresClone : Bool
deriving Repr, DecidableEq

/-- `EvalStep` from `src/graph.rs`: one node together with its argument
slots (`None` = unconnected). -/
structure EvalStep where
  node : Nat
  args : List (Option ExprInput)
deriving Repr, DecidableEq

/-- The `requires_clone` computation inside `push_eval_steps`
(`src/graph.rs` lines 138-154): enumerate all outgoing edges of the
parent; `connection_ix` is set to the index of any enumerated edge whose
weight equals the processed edge's weight (so the last match wins), and
`total_connections_from_output` counts the edges leaving the same output.
The flag is set when the output has more than one connection and
`connection_ix` is not the last such index. -/
def requiresCloneFlag (g : Graph) (parent : Nat) (w : Edge) : Bool :=
  let r := (edgesOut g parent).foldl
    (fun (p : Nat × Nat × Nat) pe =>
      (p.1 + 1,
        if pe.w = w then p.1 else p.2.1,
        if pe.w.output = w.output then p.2.2 + 1 else p.2.2))
    (0, 0, 0)
  decide (1 < r.2.2) && decide (r.2.1 < r.2.2 - 1)

/-- The argument-slot construction of `push_eval_steps` for one visited
node: start from `None` for each declared input, then for each incoming
edge (in enumeration order) assign `args[input] = Some(..)`.  The Rust
indexing `args[w.input.0 as usize]` panics when the input index is out of
range; this is modelled by `none`. -/
def applyIncoming (g : Graph) (acc : Option (List (Option ExprInput))) (e : GEdge) :
    Option (List (Option ExprInput)) :=
  acc.bind fun args =>
    if e.w.input < args.length then
      some (args.set e.w.input (some ⟨e.src, e.w.output, requiresCloneFlag g e.src e.w⟩))
    else none

def buildArgs (g : Graph) (v : Nat) (nIn : Nat) : Option (List (Option ExprInput)) :=
  (edgesIn g v).foldl (applyIncoming g) (some (List.replicate nIn none))

/-- Lookup into the discovered-map (petgraph `VisitMap`); out-of-range
indices read as not discovered. -/
def discGet (disc : List Bool) (v : Nat) : Bool :=
  disc.getD v false

/-- `neighbors(v)`: targets of the outgoing edges, enumeration order. -/
def neighbors (g : Graph) (v : Nat) : List Nat :=
  (edgesOut g v).map (fun e => e.dst)

/-- The successor-pushing loop of petgraph's `Dfs::next`: push each
not-yet-discovered successor onto the stack (head of the list = top). -/
def pushUndiscovered (disc : List Bool) (stack : List Nat) (ns : List Nat) : List Nat :=
  ns.foldl (fun st s => if discGet disc s then st else s :: st) stack

/-- The traversal loop of `push_eval_steps` (`src/graph.rs` lines
120-167) driven by petgraph's `Dfs`: pop the stack, skip discovered
nodes; on first discovery look the node up (panic if absent), build its
argument slots, push undiscovered successors and record the step.
Steps are accumulated in reverse. -/
def dfsLoop (g : Graph) : Nat → List Nat → List Bool → List EvalStep → Option (List EvalStep)
  | 0, _, _, _ => none
  | _ + 1, [], _, acc => some acc.reverse
  | fuel + 1, v :: rest, disc, acc =>
    if discGet disc v then
      dfsLoop g fuel rest disc acc
    else
      let disc' := disc.set v true
      match g.nodes[v]? with
      | none => none
      | some nd =>
        match buildArgs g v nd.nInputs with
        | none => none
        | some args =>
          dfsLoop g fuel (pushUndiscovered disc' rest (neighbors g v)) disc' (⟨v, args⟩ :: acc)

/-- `push_eval_steps(g, n)`: DFS from `n` producing the ordered eval
steps.  The fuel bound exceeds the maximal number of loop iterations
(proved below, `dfsLoop_fuel` machinery). -/
def pushEvalSteps (g : Graph) (n : Nat) : Option (List EvalStep) :=
  dfsLoop g (g.nodes.length * g.edges.length + g.nodes.length + 2)
    [n] (List.replicate g.nodes.length false) []

/-- Declared input arity of the node at index `v` (0 if absent). -/
def nInputsD (g : Graph) (v : Nat) : Nat :=
  ((g.nodes[v]?).map (fun nd => nd.nInputs)).getD 0

/-- Declared output arity of the node at index `v` (0 if absent). -/
def nOutputsD (g : Graph) (v : Nat) : Nat :=
  ((g.nodes[v]?).map (fun nd => nd.nOutputs)).getD 0

/-- Graph sanity assumed by the traversal claims: every edge points at an
existing node and at an input slot within that node's declared arity. -/
def WellFormed (g : Graph) : Prop :=
  ∀ e ∈ g.edges, e.dst < g.nodes.length ∧ e.w.input < nInputsD g e.dst

instance (g : Graph) : Decidable (WellFormed g) := by
  unfold WellFormed; infer_instance

/-- There is an edge from `u` to `w` in `g`. -/
def IsEdge (g : Graph) (u w : Nat) : Prop :=
  ∃ e ∈ g.edges, e.src = u ∧ e.dst = w

/-- Reachability along edge direction (producer to consumer). -/
inductive Reachable (g : Graph) (n : Nat) : Nat → Prop
  | refl : Reachable g n n
  | tail {a b : Nat} : Reachable g n a → IsEdge g a b → Reachable g n b

/-! Embedding of the code synthesizer `push_eval_fn` (`src/graph.rs`
lines 182-325) together with its helpers `var_name`, `insert_lvalue`,
`var_pat` and `input_expr`. -/

/-- The lvalue map `HashMap<(NodeId, Output), Ident>`, as an association
list with the most recent insertion first (lookup takes the most recent
binding, matching `HashMap::insert` overwrite semantics). -/
def LVals : Type := List ((Nat × Nat) × String)

/-- `HashMap::get` on the lvalue map. -/
def lvalsGet (lv : LVals) (k : Nat × Nat) : Option String :=
  (List.find? (fun p => p.1 = k) lv).map (fun p => p.2)

/-- `insert_lvalue`: record the variable for `(node, output)`. -/
def lvalsInsert (lv : LVals) (k : Nat × Nat) (name : String) : LVals :=
  (k, name) :: lv

/-- `var_name(node_ix, out_ix)`: deterministic variable naming. -/
def varName (si : Nat) (vi : Nat) : String :=
  "_node" ++ toString si ++ "_output" ++ toString vi

/-- Model of the `syn::Pat` patterns built by `push_eval_fn`: the unit
pattern for 0 outputs, one identifier for 1 output, a tuple of
identifiers otherwise. -/
inductive Pat where
  | unit : Pat
  | ident : String → Pat
  | tuple : List String → Pat
deriving Repr, DecidableEq

/-- The identifiers bound by a pattern, in order. -/
def patVars : Pat → List String
  | Pat.unit => []
  | Pat.ident s => [s]
  | Pat.tuple l => l

/-- One generated binding statement `let #lvals = #expr;`. -/
structure Stmt where
  pat : Pat
  expr : Expr
deriving Repr

/-- `input_expr` (`src/graph.rs` lines 229-254): an unconnected slot
becomes the default-value expression; a resolved slot becomes a reference
to the recorded variable, cloned when `requires_clone` is set; a resolved
slot with no recorded variable panics (modelled as `none`). -/
def inputExpr (arg : Option ExprInput) (lv : LVals) : Option Expr :=
  match arg with
  | none => some Expr.defaultVal
  | some a =>
    match lvalsGet lv (a.node, a.output) with
    | none => none
    | some i => some (if a.requiresClone then Expr.blockClone i else Expr.blockRef i)

/-- Model of `syn::FnDecl`: the parameter list and return type carried by
a push-entry descriptor (parameters kept opaque as rendered strings). -/
structure FnDecl where
  inputs : List String
  output : Option String
deriving Repr, DecidableEq

/-- `node::PushEval`: the push-entry descriptor destructured by
`push_eval_fn` (`let node::PushEval { fn_decl, fn_name, fn_attrs }`). -/
structure PushEval where
  fnDecl : FnDecl
  fnName : String
  fnAttrs : List String
deriving Repr

/-- Model of `syn::ItemFn` as assembled by `push_eval_fn`: attributes,
public visibility, name, declaration and statement block. -/
structure ItemFn where
  attrs : List String
  isPub : Bool
  name : String
  decl : FnDecl
  block : List Stmt
deriving Repr

/-- Resolve every argument slot of a step through `input_expr`
(the `step.args.iter().map(..).collect()` of `push_eval_fn`); any
panicking resolution aborts the run. -/
def collectArgs (lv : LVals) : List (Option ExprInput) → Option (List Expr)
  | [] => some []
  | a :: rest =>
    (inputExpr a lv).bind fun e => (collectArgs lv rest).map fun es => e :: es

/-- The binding pattern built per step by `push_eval_fn`: the unit
pattern for no outputs, one identifier for a single output, a tuple of
identifiers for several outputs. -/
def stepPat (si : Nat) (nOut : Nat) : Pat :=
  if nOut = 0 then Pat.unit
  else if nOut = 1 then Pat.ident (varName si 0)
  else Pat.tuple ((List.range nOut).map (fun vi => varName si vi))

/-- The lvalue-map insertions performed per step by `push_eval_fn`: one
recorded variable per output of the evaluated node. -/
def stepLVals (lv : LVals) (node : Nat) (si : Nat) (nOut : Nat) : LVals :=
  if nOut = 0 then lv
  else if nOut = 1 then lvalsInsert lv (node, 0) (varName si 0)
  else (List.range nOut).foldl (fun l vi => lvalsInsert l (node, vi) (varName si vi)) lv

/-- The per-step loop of `push_eval_fn` (`src/graph.rs` lines 256-304):
for each step, look up the node (panic if absent), resolve every argument
slot through `input_expr`, apply the node's expression generator, build
the binding pattern for the node's output arity while recording the fresh
variables, and emit the statement.  `si` is the running step index used
by `var_name`. -/
def synthLoop (g : Graph) : List EvalStep → Nat → LVals → Option (List Stmt)
  | [], _, _ => some []
  | step :: rest, si, lv =>
    match g.nodes[step.node]? with
    | none => none
    | some nd =>
      match collectArgs lv step.args with
      | none => none
      | some argExprs =>
        (synthLoop g rest (si + 1) (stepLVals lv step.node si nd.nOutputs)).map
          (fun stmts => ⟨stepPat si nd.nOutputs, nd.exprFn argExprs⟩ :: stmts)

/-- `push_eval_fn` (`src/graph.rs` lines 182-325): synthesize the ordered
binding statements and assemble the final function with the descriptor's
attributes, name and declaration and public visibility. -/
def pushEvalFn (g : Graph) (pe : PushEval) (steps : List EvalStep) : Option ItemFn :=
  (synthLoop g steps 0 []).map (fun stmts =>
    { attrs := pe.fnAttrs
      isPub := true
      name := pe.fnName
      decl := pe.fnDecl
      block := stmts })

/-! Embedding of the nested-graph adapter from
`gantz_core/src/graph/mod.rs`: `GraphNode`, the signature synthesis
(`graph_node_evaluator_signature` and its helpers) and the `Node`
implementation for `GraphNode` (`evaluator`). -/

namespace Core

/-- `syn::Type`, kept opaque as its rendered text. -/
abbrev Ty := String

/-- The node capability surface the adapter needs (`Node::state_type`). -/
structure CNode where
  stateType : Option Ty
deriving Repr

/-- `syn::ReturnType` of the synthesized evaluator signature: default
(void), a single type, or a tuple type. -/
inductive RetTy where
  | void : RetTy
  | single : Ty → RetTy
  | tuple : List Ty → RetTy
deriving Repr, DecidableEq

/-- Model of `syn::Signature`: name, parameters (name and type) in order,
and return type. -/
structure Sig where
  ident : String
  inputs : List (String × Ty)
  output : RetTy
deriving Repr, DecidableEq

/-- An inner graph as used by `GraphNode`, i.e. the `Graph` trait surface
of `gantz_core`: node lookup by id, the aggregate state type, and the
`EvaluatorFnBlock` body generator (kept opaque). -/
structure CGraph where
  nodes : List CNode
  stateTy : Ty
  evalBlock : List Nat → List Nat → Sig → String

/-- `GraphNode<G>`: an inner graph with ordered inlet and outlet node-id
lists. -/
structure GraphNode (G : Type) (Id : Type) where
  graph : G
  inlets : List Id
  outlets : List Id
deriving Repr, DecidableEq

/-- `Graph::node(id)` for the concrete model. -/
def nodeAt (g : CGraph) (id : Nat) : Option CNode :=
  g.nodes[id]?

/-- `expect_node_state_type`: node lookup then `state_type`, panicking
(modelled by `none`) when either is absent. -/
def expectNodeStateType (g : CGraph) (n : Nat) : Option Ty :=
  (nodeAt g n).bind (fun nd => nd.stateType)

/-- The `inlets.iter().enumerate().map(..)` collect of
`graph_node_evaluator_fn_inputs`, with `k` the running enumeration
index. -/
def sigFnInputsFrom (g : CGraph) : Nat → List Nat → Option (List (String × Ty))
  | _, [] => some []
  | k, n :: rest =>
    (expectNodeStateType g n).bind fun ty =>
      (sigFnInputsFrom g (k + 1) rest).map fun ps => ("inlet" ++ toString k, ty) :: ps

/-- `graph_node_evaluator_fn_inputs`: one parameter per inlet, named
`inlet{i}` in order, typed by the inlet node's state type. -/
def sigFnInputs (g : CGraph) (inlets : List Nat) : Option (List (String × Ty)) :=
  sigFnInputsFrom g 0 inlets

/-- The `outlets.iter().map(expect_node_state_type).collect()` of the
tuple branch of `graph_node_evaluator_fn_output`. -/
def stateTypes (g : CGraph) : List Nat → Option (List Ty)
  | [] => some []
  | n :: rest =>
    (expectNodeStateType g n).bind fun ty =>
      (stateTypes g rest).map fun ts => ty :: ts

/-- `graph_node_evaluator_fn_output`: void for no outlets, the single
outlet's state type for one, a tuple of the outlet state types
otherwise. -/
def sigFnOutput (g : CGraph) (outlets : List Nat) : Option RetTy :=
  match outlets with
  | [] => some RetTy.void
  | [o] => (expectNodeStateType g o).map RetTy.single
  | os => (stateTypes g os).map RetTy.tuple

/-- `graph_node_evaluator_signature`: the inlet parameters followed by
the trailing `state` parameter, with the outlet-determined return
type. -/
def graphNodeEvaluatorSignature (g : CGraph) (stateTy : Ty)
    (inlets outlets : List Nat) : Option Sig :=
  (sigFnInputs g inlets).bind fun ins =>
    (sigFnOutput g outlets).map fun out =>
      { ident := "graph_node_evaluator_fn"
        inputs := ins ++ [("state", stateTy)]
        output := out }

/-- The function item held by `Evaluator::Fn`. -/
structure FnItem where
  sig : Sig
  block : String
deriving Repr, DecidableEq

/-- `node::Evaluator` (only the `Fn` variant is needed here). -/
inductive Evaluator where
  | fnEv : FnItem → Evaluator
deriving Repr, DecidableEq

/-- `<GraphNode as Node>::evaluator` (`gantz_core/src/graph/mod.rs`
lines 179-201): synthesize the full signature, generate the body from
the full signature, then pop the trailing state parameter
(`sig.inputs.pop()`) before assembling the stored function item. -/
def evaluator (gn : GraphNode CGraph Nat) : Option Evaluator :=
  (graphNodeEvaluatorSignature gn.graph gn.graph.stateTy gn.inlets gn.outlets).map
    fun sig =>
      let block := gn.graph.evalBlock gn.inlets gn.outlets sig
      Evaluator.fnEv { sig := { sig with inputs := sig.inputs.dropLast }, block := block }

/-! Embedding of the manual `Serialize`/`Deserialize` implementations for
`GraphNode` (`gantz_core/src/graph/mod.rs` lines 226-342) over a generic
serde-style data model. -/

/-- A serde data value: enough of the serde data model for the
`GraphNode` struct serializer (named struct with ordered fields) and the
two visitor paths (map access and seq access). -/
inductive Value where
  | vnat : Nat → Value
  | vstr : String → Value
  | vlist : List Value → Value
  | vobj : String → List (String × Value) → Value
deriving Repr

/-- `Serialize for GraphNode`: a 3-field struct serialized in the order
`graph`, `inlets`, `outlets`. -/
def serializeGraphNode {G Id : Type} (encG : G → Value) (encId : Id → Value)
    (gn : GraphNode G Id) : Value :=
  Value.vobj "GraphNode"
    [("graph", encG gn.graph),
     ("inlets", Value.vlist (gn.inlets.map encId)),
     ("outlets", Value.vlist (gn.outlets.map encId))]

/-- Decode the elements of a serialized `Vec<NodeId>` in order. -/
def decodeList {Id : Type} (decId : Value → Option Id) : List Value → Option (List Id)
  | [] => some []
  | v :: rest =>
    (decId v).bind fun i => (decodeList decId rest).map fun is => i :: is

/-- Decode a list of node ids (a serialized `Vec<NodeId>`). -/
def decodeIdList {Id : Type} (decId : Value → Option Id) : Value → Option (List Id)
  | Value.vlist items => decodeList decId items
  | _ => none

/-- The `visit_map` loop of the `GraphNode` visitor: fields are matched
by name, a duplicate field or an unrecognized key is an error, and all
three fields must be present at the end. -/
def visitMapFields {G Id : Type} (decG : Value → Option G) (decId : Value → Option Id) :
    List (String × Value) → Option G → Option (List Id) → Option (List Id) →
    Option (GraphNode G Id)
  | [], some g, some ins, some outs => some ⟨g, ins, outs⟩
  | [], _, _, _ => none
  | (k, v) :: rest, gAcc, inAcc, outAcc =>
    if k = "graph" then
      match gAcc with
      | some _ => none
      | none => (decG v).bind fun gv => visitMapFields decG decId rest (some gv) inAcc outAcc
    else if k = "inlets" then
      match inAcc with
      | some _ => none
      | none => (decodeIdList decId v).bind fun iv =>
          visitMapFields decG decId rest gAcc (some iv) outAcc
    else if k = "outlets" then
      match outAcc with
      | some _ => none
      | none => (decodeIdList decId v).bind fun ov =>
          visitMapFields decG decId rest gAcc inAcc (some ov)
    else none

/-- `Deserialize for GraphNode`: a struct value takes the `visit_map`
path; a plain sequence takes the `visit_seq` path (three positional
elements: graph, inlets, outlets); anything else is an error. -/
def deserializeGraphNode {G Id : Type} (decG : Value → Option G) (decId : Value → Option Id) :
    Value → Option (GraphNode G Id)
  | Value.vobj _ fields => visitMapFields decG decId fields none none none
  | Value.vlist items =>
    match items with
    | gv :: iv :: ov :: _ =>
      (decG gv).bind fun g =>
        (decodeIdList decId iv).bind fun ins =>
          (decodeIdList decId ov).map fun outs => ⟨g, ins, outs⟩
    | _ => none
  | _ => none

end Core

/-- Out-degree of a node: the number of its outgoing edges. -/
def outdeg (g : Graph) (v : Nat) : Nat :=
  (edgesOut g v).length

/-- Total out-degree of the not-yet-discovered nodes: the termination
measure of the traversal loop (together with the stack length). -/
def outdegSum (g : Graph) (disc : List Bool) : Nat :=
  ∑ v in Finset.range g.nodes.length, if discGet disc v then 0 else outdeg g v

/-- The per-step facts carried through the traversal: the visited node
exists, the argument-slot vector has exactly the node's declared input
arity, and it is exactly the vector built from the node's incoming
edges. -/
def StepOK (g : Graph) (s : EvalStep) : Prop :=
  ∃ nd, g.nodes[s.node]? = some nd ∧ s.args.length = nd.nInputs ∧
    buildArgs g s.node nd.nInputs = some s.args

/-- The claim-level precondition for synthesis success, accumulated over
a prefix of already-processed steps: every resolved slot of the next step
refers to an (existing) output index of a node evaluated by a preceding
step, recursively for the remaining steps. -/
def ResolvableFrom (g : Graph) : List EvalStep → List EvalStep → Prop
  | _, [] => True
  | done, s :: rest =>
    (∀ a : ExprInput, some a ∈ s.args →
      ∃ t ∈ done, t.node = a.node ∧
        ∃ nd, g.nodes[a.node]? = some nd ∧ a.output < nd.nOutputs) ∧
    ResolvableFrom g (done ++ [s]) rest

/-! Concrete instances used to evaluate the embedded code. -/

/-- Scenario A of the spec: node 0 `One` (0 inputs, 1 output) wired by
two edges to both inputs of node 1 `Add` (2 inputs, 1 output), wired to
node 2 `Debug` (1 input, 0 outputs). -/
def scenarioA : Graph :=
  { nodes := [⟨0, 1, fun _ => Expr.call "one" []⟩,
              ⟨2, 1, fun a => Expr.call "add" a⟩,
              ⟨1, 0, fun a => Expr.call "dbg" a⟩]
    edges := [⟨0, 1, ⟨0, 0⟩⟩, ⟨0, 1, ⟨0, 1⟩⟩, ⟨1, 2, ⟨0, 0⟩⟩] }

/-- A graph whose node 0 (1 output) fans out through two edges of equal
weight `(output 0, input 0)` to two distinct consumers. -/
def dupWeightGraph : Graph :=
  { nodes := [⟨0, 1, fun _ => Expr.call "one" []⟩,
              ⟨1, 0, fun a => Expr.call "p" a⟩,
              ⟨1, 0, fun a => Expr.call "q" a⟩]
    edges := [⟨0, 1, ⟨0, 0⟩⟩, ⟨0, 2, ⟨0, 0⟩⟩] }

/-- A graph with an edge incorrectly attached into node 1, which
declares 0 inputs. -/
def badInputGraph : Graph :=
  { nodes := [⟨0, 1, fun _ => Expr.call "one" []⟩,
              ⟨0, 1, fun _ => Expr.call "z" []⟩]
    edges := [⟨0, 1, ⟨0, 0⟩⟩] }

/-- Number of resolved argument slots across a traversal from `start`
that reference `(src, out)` and carry clone flag `b`. -/
def cloneFlagCount (g : Graph) (start src out : Nat) (b : Bool) : Nat :=
  match pushEvalSteps g start with
  | none => 0
  | some steps =>
    (((steps.map (fun s => s.args)).flatten.filterMap id).filter
      (fun a => a.node == src && a.output == out && a.requiresClone == b)).length

/-- The C8 precondition as stated by the spec, accumulated over processed
steps: every resolved slot of each step names the node of some preceding
step (nothing is said about the output index). -/
def sourcesPrecede : List EvalStep → List EvalStep → Bool
  | _, [] => true
  | done, s :: rest =>
    (s.args.all (fun x =>
      match x with
      | none => true
      | some a => done.any (fun t => t.node == a.node))) &&
    sourcesPrecede (done ++ [s]) rest

/-- A push-entry descriptor whose declaration carries one parameter. -/
def paramPush : PushEval :=
  { fnDecl := { inputs := ["x: i32"], output := none }
    fnName := "go"
    fnAttrs := ["no_mangle"] }

/-- A parameterless push-entry descriptor. -/
def plainPush : PushEval :=
  { fnDecl := { inputs := [], output := none }
    fnName := "entry"
    fnAttrs := [] }

/-- The empty graph. -/
def emptyGraph : Graph := { nodes := [], edges := [] }

/-- An `EvalStep` list whose second step resolves its slot from the
first step's node but names output index 5, which the 1-output node does
not have. -/
def badOutputSteps : List EvalStep :=
  [⟨0, []⟩, ⟨1, [some ⟨0, 5, false⟩]⟩]

/-- The parameter names of the function item stored in a `GraphNode`
evaluator. -/
def evaluatorParamNames (gn : Core.GraphNode Core.CGraph Nat) : Option (List String) :=
  (Core.evaluator gn).map (fun ev =>
    match ev with
    | Core.Evaluator.fnEv item => item.sig.inputs.map Prod.fst)

/-- A one-inlet one-outlet `GraphNode` over typed boundary nodes
(Scenario B shape: an `i32` inlet and an `i32` outlet). -/
def scenarioB : Core.GraphNode Core.CGraph Nat :=
  { graph := { nodes := [⟨some "i32"⟩, ⟨some "i32"⟩]
               stateTy := "State"
               evalBlock := fun _ _ _ => "body" }
    inlets := [0]
    outlets := [1] }

/-- Decoder for `Value.vnat`-encoded ids. -/
def decNat : Core.Value → Option Nat
  | Core.Value.vnat n => some n
  | _ => none

/-! Lemmas about the traversal engine. -/

theorem discGet_replicate (n v : Nat) : discGet (List.replicate n false) v = false := by
  rcases Nat.lt_or_ge v n with h | h
  · simp [discGet, List.getD_eq_getElem?_getD, List.getElem?_replicate, h]
  · have hlen : (List.replicate n false).length ≤ v := by simpa using h
    simp [discGet, List.getD_eq_getElem?_getD, List.getElem?_eq_none hlen]

theorem discGet_set_self (disc : List Bool) (v : Nat) (h : v < disc.length) :
    discGet (disc.set v true) v = true := by
  simp [discGet, List.getD_eq_getElem?_getD, List.getElem?_set_self, h]

theorem discGet_set_of_ne (disc : List Bool) {v u : Nat} (h : v ≠ u) :
    discGet (disc.set v true) u = discGet disc u := by
  simp [discGet, List.getD_eq_getElem?_getD, List.getElem?_set_ne h]

theorem discGet_set_mono (disc : List Bool) (v u : Nat) (h : discGet disc u = true) :
    discGet (disc.set v true) u = true := by
  by_cases hvu : v = u
  · subst hvu
    by_cases hlt : v < disc.length
    · exact discGet_set_self disc v hlt
    · rw [List.set_eq_of_length_le (Nat.le_of_not_lt hlt)]
      exact h
  · rw [discGet_set_of_ne disc hvu]
    exact h

theorem subset_pushUndiscovered (disc : List Bool) (ns : List Nat) :
    ∀ st : List Nat, ∀ x ∈ st, x ∈ pushUndiscovered disc st ns := by
  induction ns with
  | nil => intro st x hx; exact hx
  | cons n ns ih =>
    intro st x hx
    show x ∈ pushUndiscovered disc (if discGet disc n then st else n :: st) ns
    apply ih
    by_cases h : discGet disc n <;> simp [h, hx]

theorem mem_pushUndiscovered (disc : List Bool) (ns : List Nat) :
    ∀ st : List Nat, ∀ x, x ∈ pushUndiscovered disc st ns → x ∈ st ∨ x ∈ ns := by
  induction ns with
  | nil => intro st x hx; exact Or.inl hx
  | cons n ns ih =>
    intro st x hx
    have hx' : x ∈ pushUndiscovered disc (if discGet disc n then st else n :: st) ns := hx
    rcases ih _ x hx' with h | h
    · by_cases hd : discGet disc n
      · rw [if_pos hd] at h; exact Or.inl h
      · rw [if_neg hd] at h
        rcases List.mem_cons.mp h with h | h
        · exact Or.inr (by simp [h])
        · exact Or.inl h
    · exact Or.inr (by simp [h])

theorem pushUndiscovered_covers (disc : List Bool) (ns : List Nat) :
    ∀ st : List Nat, ∀ x ∈ ns, discGet disc x = true ∨ x ∈ pushUndiscovered disc st ns := by
  induction ns with
  | nil => intro st x hx; exact absurd hx (List.not_mem_nil x)
  | cons n ns ih =>
    intro st x hx
    rcases List.mem_cons.mp hx with h | h
    · subst h
      by_cases hd : discGet disc x
      · exact Or.inl hd
      · refine Or.inr ?_
        show x ∈ pushUndiscovered disc (if discGet disc x then st else x :: st) ns
        rw [if_neg hd]
        exact subset_pushUndiscovered disc ns _ x (by simp)
    · exact ih _ x h

theorem length_pushUndiscovered (disc : List Bool) (ns : List Nat) :
    ∀ st : List Nat, (pushUndiscovered disc st ns).length ≤ st.length + ns.length := by
  induction ns with
  | nil => intro st; simp [pushUndiscovered]
  | cons n ns ih =>
    intro st
    have h : (pushUndiscovered disc (if discGet disc n then st else n :: st) ns).length ≤
        (if discGet disc n then st else n :: st).length + ns.length := ih _
    calc (pushUndiscovered disc st (n :: ns)).length
        = (pushUndiscovered disc (if discGet disc n then st else n :: st) ns).length := rfl
      _ ≤ (if discGet disc n then st else n :: st).length + ns.length := h
      _ ≤ st.length + (n :: ns).length := by
          by_cases hd : discGet disc n
          · simp [hd]
          · simp [hd]
            omega

theorem mem_edgesOut (g : Graph) (v : Nat) (e : GEdge) :
    e ∈ edgesOut g v ↔ e ∈ g.edges ∧ e.src = v := by
  simp [edgesOut, List.mem_reverse, List.mem_filter]

theorem mem_edgesIn (g : Graph) (v : Nat) (e : GEdge) :
    e ∈ edgesIn g v ↔ e ∈ g.edges ∧ e.dst = v := by
  simp [edgesIn, List.mem_reverse, List.mem_filter]

theorem mem_neighbors (g : Graph) (v x : Nat) :
    x ∈ neighbors g v ↔ IsEdge g v x := by
  constructor
  · intro hx
    obtain ⟨e, he, hdst⟩ := List.mem_map.mp hx
    obtain ⟨hmem, hsrc⟩ := (mem_edgesOut g v e).mp he
    exact ⟨e, hmem, hsrc, hdst⟩
  · rintro ⟨e, hmem, hsrc, hdst⟩
    exact List.mem_map.mpr ⟨e, (mem_edgesOut g v e).mpr ⟨hmem, hsrc⟩, hdst⟩

theorem length_neighbors (g : Graph) (v : Nat) : (neighbors g v).length = outdeg g v := by
  simp [neighbors, outdeg]

theorem outdeg_le (g : Graph) (v : Nat) : outdeg g v ≤ g.edges.length := by
  have h := List.length_filter_le (fun e => e.src == v) g.edges
  simpa [outdeg, edgesOut] using h

theorem outdegSum_le (g : Graph) (disc : List Bool) :
    outdegSum g disc ≤ g.nodes.length * g.edges.length := by
  calc outdegSum g disc
      ≤ ∑ _v in Finset.range g.nodes.length, g.edges.length := by
        apply Finset.sum_le_sum
        intro v _
        by_cases h : discGet disc v
        · simp [h]
        · simp only [h, if_false]
          exact outdeg_le g v
    _ = g.nodes.length * g.edges.length := by
        simp [Finset.sum_const, Finset.card_range]

theorem outdegSum_set (g : Graph) (disc : List Bool) (v : Nat)
    (hlen : disc.length = g.nodes.length)
    (hv : v < g.nodes.length) (hd : discGet disc v = false) :
    outdegSum g disc = outdegSum g (disc.set v true) + outdeg g v := by
  have hsplit : ∀ u ∈ Finset.range g.nodes.length,
      (if discGet disc u then 0 else outdeg g u) =
        (if discGet (disc.set v true) u then 0 else outdeg g u) +
          (if u = v then outdeg g v else 0) := by
    intro u _
    by_cases huv : u = v
    · subst huv
      have hlt : u < disc.length := by omega
      simp [hd, discGet_set_self disc u hlt]
    · rw [discGet_set_of_ne disc (fun h => huv h.symm)]
      simp [huv]
  calc outdegSum g disc
      = ∑ u in Finset.range g.nodes.length,
          ((if discGet (disc.set v true) u then 0 else outdeg g u) +
            (if u = v then outdeg g v else 0)) := Finset.sum_congr rfl hsplit
    _ = outdegSum g (disc.set v true) +
          ∑ u in Finset.range g.nodes.length, (if u = v then outdeg g v else 0) := by
        rw [Finset.sum_add_distrib]; rfl
    _ = outdegSum g (disc.set v true) + outdeg g v := by
        rw [Finset.sum_ite_eq' (Finset.range g.nodes.length) v (fun _ => outdeg g v)]
        simp [Finset.mem_range.mpr hv]

theorem foldIncoming_none (g : Graph) (l : List GEdge) :
    l.foldl (applyIncoming g) none = none := by
  induction l with
  | nil => rfl
  | cons e l ih => simpa [applyIncoming] using ih

theorem foldIncoming_some (g : Graph) (l : List GEdge) :
    ∀ args₀ : List (Option ExprInput), (∀ e ∈ l, e.w.input < args₀.length) →
      ∃ args, l.foldl (applyIncoming g) (some args₀) = some args ∧
        args.length = args₀.length := by
  induction l with
  | nil => intro args₀ _; exact ⟨args₀, rfl, rfl⟩
  | cons e l ih =>
    intro args₀ hin
    have he : e.w.input < args₀.length := hin e (by simp)
    have hstep : applyIncoming g (some args₀) e =
        some (args₀.set e.w.input
          (some ⟨e.src, e.w.output, requiresCloneFlag g e.src e.w⟩)) := by
      simp [applyIncoming, he]
    obtain ⟨args, hrun, hlen⟩ := ih
      (args₀.set e.w.input (some ⟨e.src, e.w.output, requiresCloneFlag g e.src e.w⟩))
      (by intro e' he'; simpa using hin e' (by simp [he']))
    refine ⟨args, ?_, by simpa using hlen⟩
    calc (e :: l).foldl (applyIncoming g) (some args₀)
        = l.foldl (applyIncoming g) (applyIncoming g (some args₀) e) := rfl
      _ = some args := by rw [hstep]; exact hrun

theorem foldIncoming_untouched (g : Graph) (l : List GEdge) :
    ∀ (args₀ args : List (Option ExprInput)) (i : Nat),
      l.foldl (applyIncoming g) (some args₀) = some args →
      (∀ e ∈ l, e.w.input ≠ i) → args[i]? = args₀[i]? := by
  induction l with
  | nil =>
    intro args₀ args i hrun _
    cases hrun
    rfl
  | cons e l ih =>
    intro args₀ args i hrun hni
    by_cases he : e.w.input < args₀.length
    · have hstep : applyIncoming g (some args₀) e =
          some (args₀.set e.w.input
            (some ⟨e.src, e.w.output, requiresCloneFlag g e.src e.w⟩)) := by
        simp [applyIncoming, he]
      have hrun2 : l.foldl (applyIncoming g) (applyIncoming g (some args₀) e) = some args :=
        hrun
      rw [hstep] at hrun2
      have hne : e.w.input ≠ i := hni e (by simp)
      have hmid := ih _ args i hrun2 (fun e' he' => hni e' (by simp [he']))
      rw [hmid]
      exact List.getElem?_set_ne hne
    · have hstep : applyIncoming g (some args₀) e = none := by
        simp [applyIncoming, he]
      have hrun2 : l.foldl (applyIncoming g) (applyIncoming g (some args₀) e) = some args :=
        hrun
      rw [hstep, foldIncoming_none] at hrun2
      cases hrun2

theorem buildArgs_ok (g : Graph) (v : Nat) (nIn : Nat)
    (h : ∀ e ∈ edgesIn g v, e.w.input < nIn) :
    ∃ args, buildArgs g v nIn = some args ∧ args.length = nIn := by
  obtain ⟨args, hrun, hlen⟩ := foldIncoming_some g (edgesIn g v) (List.replicate nIn none)
    (by intro e he; simpa using h e he)
  exact ⟨args, hrun, by simpa using hlen⟩

theorem buildArgs_unconnected (g : Graph) (v : Nat) (nIn : Nat)
    (args : List (Option ExprInput)) (i : Nat)
    (hrun : buildArgs g v nIn = some args) (hi : i < nIn)
    (hno : ∀ e ∈ edgesIn g v, e.w.input ≠ i) :
    args[i]? = some none := by
  have h := foldIncoming_untouched g (edgesIn g v) (List.replicate nIn none) args i hrun hno
  rw [h, List.getElem?_replicate]
  simp [hi]

/-- Correctness of the traversal loop.  Starting from any loop state
satisfying the invariants (sufficient fuel, valid stack, discovered map
mirroring the emitted nodes, no duplicates, reachability of stack and
emitted nodes from `n`, and the frontier property that every successor of
a discovered node is discovered or on the stack), the loop terminates
with `some`, extends the accumulator, and the final emitted node set is
duplicate-free, contains the stack, is reachable from `n`, is closed
under outgoing edges, and all steps satisfy `StepOK`. -/
theorem dfsLoop_correct (g : Graph) (n : Nat) (hWF : WellFormed g) :
    ∀ fuel : Nat, ∀ (stack : List Nat) (disc : List Bool) (acc : List EvalStep),
      stack.length + outdegSum g disc + 1 ≤ fuel →
      disc.length = g.nodes.length →
      (∀ v ∈ stack, v < g.nodes.length) →
      (∀ v, discGet disc v = true ↔ v ∈ acc.map EvalStep.node) →
      (acc.map EvalStep.node).Nodup →
      (∀ v ∈ stack, Reachable g n v) →
      (∀ v ∈ acc.map EvalStep.node, Reachable g n v) →
      (∀ u, discGet disc u = true → ∀ w, IsEdge g u w → discGet disc w = true ∨ w ∈ stack) →
      (∀ s ∈ acc, StepOK g s) →
      ∃ pre,
        dfsLoop g fuel stack disc acc = some ((pre ++ acc).reverse) ∧
        ((pre ++ acc).map EvalStep.node).Nodup ∧
        (∀ v ∈ stack, v ∈ (pre ++ acc).map EvalStep.node) ∧
        (∀ v ∈ (pre ++ acc).map EvalStep.node, Reachable g n v) ∧
        (∀ u ∈ (pre ++ acc).map EvalStep.node, ∀ w, IsEdge g u w →
          w ∈ (pre ++ acc).map EvalStep.node) ∧
        (∀ s ∈ pre ++ acc, StepOK g s) := by
  intro fuel
  induction fuel with
  | zero =>
    intro stack disc acc hfuel
    omega
  | succ fuel ih =>
    intro stack disc acc hfuel hdl hsv hI1 hI2 hrs hra hcl hok
    match stack with
    | [] =>
      refine ⟨[], rfl, by simpa using hI2, ?_, by simpa using hra, ?_, by simpa using hok⟩
      · intro v hv
        exact absurd hv (List.not_mem_nil v)
      · intro u hu w hw
        have hd : discGet disc u = true := (hI1 u).mpr (by simpa using hu)
        rcases hcl u hd w hw with h | h
        · simpa using (hI1 w).mp h
        · exact absurd h (List.not_mem_nil w)
    | v :: rest =>
      by_cases hd : discGet disc v
      · -- already discovered: skip
        have hstep : dfsLoop g (fuel + 1) (v :: rest) disc acc =
            dfsLoop g fuel rest disc acc := by
          simp [dfsLoop, hd]
        have hfuel' : rest.length + outdegSum g disc + 1 ≤ fuel := by
          have : (v :: rest).length = rest.length + 1 := by simp
          omega
        have hcl' : ∀ u, discGet disc u = true → ∀ w, IsEdge g u w →
            discGet disc w = true ∨ w ∈ rest := by
          intro u hu w hw
          rcases hcl u hu w hw with h | h
          · exact Or.inl h
          · rcases List.mem_cons.mp h with h | h
            · exact Or.inl (h ▸ hd)
            · exact Or.inr h
        obtain ⟨pre, h1, h2, h3, h4, h5, h6⟩ := ih rest disc acc hfuel' hdl
          (fun u hu => hsv u (by simp [hu])) hI1 hI2
          (fun u hu => hrs u (by simp [hu])) hra hcl' hok
        refine ⟨pre, by rw [hstep]; exact h1, h2, ?_, h4, h5, h6⟩
        intro u hu
        rcases List.mem_cons.mp hu with h | h
        · subst h
          have hmem : u ∈ acc.map EvalStep.node := (hI1 u).mp hd
          simp only [List.map_append, List.mem_append]
          exact Or.inr hmem
        · exact h3 u h
      · -- first discovery of v
        have hvV : v < g.nodes.length := hsv v (by simp)
        obtain ⟨nd, hnd⟩ : ∃ nd, g.nodes[v]? = some nd :=
          ⟨g.nodes[v], List.getElem?_eq_getElem hvV⟩
        have hins : ∀ e ∈ edgesIn g v, e.w.input < nd.nInputs := by
          intro e he
          obtain ⟨hmem, hdst⟩ := (mem_edgesIn g v e).mp he
          have h2 := (hWF e hmem).2
          rw [hdst] at h2
          simpa [nInputsD, hnd] using h2
        obtain ⟨args, hargs, halen⟩ := buildArgs_ok g v nd.nInputs hins
        have hstep : dfsLoop g (fuel + 1) (v :: rest) disc acc =
            dfsLoop g fuel (pushUndiscovered (disc.set v true) rest (neighbors g v))
              (disc.set v true) (⟨v, args⟩ :: acc) := by
          simp [dfsLoop, hd, hnd, hargs]
        have hvdl : v < disc.length := by omega
        have hfuel' : (pushUndiscovered (disc.set v true) rest (neighbors g v)).length +
            outdegSum g (disc.set v true) + 1 ≤ fuel := by
          have hlen1 := length_pushUndiscovered (disc.set v true) (neighbors g v) rest
          rw [length_neighbors] at hlen1
          have hsum := outdegSum_set g disc v hdl hvV (by simpa using hd)
          have hcons : (v :: rest).length = rest.length + 1 := by simp
          omega
        have hdl' : (disc.set v true).length = g.nodes.length := by simpa using hdl
        have hsv' : ∀ u ∈ pushUndiscovered (disc.set v true) rest (neighbors g v),
            u < g.nodes.length := by
          intro u hu
          rcases mem_pushUndiscovered (disc.set v true) (neighbors g v) rest u hu with h | h
          · exact hsv u (by simp [h])
          · obtain ⟨e, hmem, _, hdst⟩ := (mem_neighbors g v u).mp h
            exact hdst ▸ (hWF e hmem).1
        have hI1' : ∀ u, discGet (disc.set v true) u = true ↔
            u ∈ (({ node := v, args := args } : EvalStep) :: acc).map EvalStep.node := by
          intro u
          by_cases huv : u = v
          · subst huv
            simp [discGet_set_self disc u hvdl]
          · rw [discGet_set_of_ne disc (fun h => huv h.symm)]
            constructor
            · intro h
              simp only [List.map_cons, List.mem_cons]
              exact Or.inr ((hI1 u).mp h)
            · intro h
              rw [List.map_cons] at h
              rcases List.mem_cons.mp h with h | h
              · exact absurd h huv
              · exact (hI1 u).mpr h
        have hvnot : v ∉ acc.map EvalStep.node := by
          intro hmem
          exact hd ((hI1 v).mpr hmem)
        have hI2' : ((({ node := v, args := args } : EvalStep) :: acc).map
            EvalStep.node).Nodup := by
          simp only [List.map_cons]
          exact List.nodup_cons.mpr ⟨hvnot, hI2⟩
        have hreachv : Reachable g n v := hrs v (by simp)
        have hrs' : ∀ u ∈ pushUndiscovered (disc.set v true) rest (neighbors g v),
            Reachable g n u := by
          intro u hu
          rcases mem_pushUndiscovered (disc.set v true) (neighbors g v) rest u hu with h | h
          · exact hrs u (by simp [h])
          · exact Reachable.tail hreachv ((mem_neighbors g v u).mp h)
        have hra' : ∀ u ∈ (({ node := v, args := args } : EvalStep) :: acc).map
            EvalStep.node, Reachable g n u := by
          intro u hu
          rw [List.map_cons] at hu
          rcases List.mem_cons.mp hu with h | h
          · exact h ▸ hreachv
          · exact hra u h
        have hcl' : ∀ u, discGet (disc.set v true) u = true → ∀ w, IsEdge g u w →
            discGet (disc.set v true) w = true ∨
              w ∈ pushUndiscovered (disc.set v true) rest (neighbors g v) := by
          intro u hu w hw
          by_cases huv : u = v
          · subst huv
            have hwn : w ∈ neighbors g u := (mem_neighbors g u w).mpr hw
            exact pushUndiscovered_covers (disc.set u true) (neighbors g u) rest w hwn
          · rw [discGet_set_of_ne disc (fun h => huv h.symm)] at hu
            rcases hcl u hu w hw with h | h
            · exact Or.inl (discGet_set_mono disc v w h)
            · rcases List.mem_cons.mp h with h | h
              · subst h
                exact Or.inl (discGet_set_self disc w hvdl)
              · exact Or.inr
                  (subset_pushUndiscovered (disc.set v true) (neighbors g v) rest w h)
        have hok' : ∀ s ∈ ({ node := v, args := args } : EvalStep) :: acc, StepOK g s := by
          intro s hs
          rcases List.mem_cons.mp hs with h | h
          · subst h
            exact ⟨nd, hnd, halen, hargs⟩
          · exact hok s h
        obtain ⟨pre', H1, H2, H3, H4, H5, H6⟩ := ih
          (pushUndiscovered (disc.set v true) rest (neighbors g v)) (disc.set v true)
          (({ node := v, args := args } : EvalStep) :: acc)
          hfuel' hdl' hsv' hI1' hI2' hrs' hra' hcl' hok'
        have hassoc : (pre' ++ [({ node := v, args := args } : EvalStep)]) ++ acc =
            pre' ++ ({ node := v, args := args } : EvalStep) :: acc := by
          simp
        refine ⟨pre' ++ [({ node := v, args := args } : EvalStep)], ?_, ?_, ?_, ?_, ?_, ?_⟩
        · rw [hstep, hassoc]
          exact H1
        · rw [hassoc]
          exact H2
        · intro u hu
          rw [hassoc]
          rcases List.mem_cons.mp hu with h | h
          · subst h
            simp only [List.map_append, List.mem_append, List.map_cons, List.mem_cons]
            exact Or.inr (Or.inl trivial)
          · exact H3 u
              (subset_pushUndiscovered (disc.set v true) (neighbors g v) rest u h)
        · rw [hassoc]
          exact H4
        · rw [hassoc]
          exact H5
        · rw [hassoc]
          exact H6

/-- One unfolding of the traversal loop at an undiscovered stack top. -/
theorem dfsLoop_cons_undisc (g : Graph) (fuel v : Nat) (rest : List Nat)
    (disc : List Bool) (acc : List EvalStep) (hd : discGet disc v = false)
    (nd : GNode) (hnd : g.nodes[v]? = some nd)
    (args : List (Option ExprInput)) (hargs : buildArgs g v nd.nInputs = some args) :
    dfsLoop g (fuel + 1) (v :: rest) disc acc =
      dfsLoop g fuel (pushUndiscovered (disc.set v true) rest (neighbors g v))
        (disc.set v true) (⟨v, args⟩ :: acc) := by
  simp [dfsLoop, hd, hnd, hargs]

/-- Incoming edges of an existing node stay within its declared input
arity, in a well-formed graph. -/
theorem edgesIn_input_lt (g : Graph) (hWF : WellFormed g) (v : Nat) (nd : GNode)
    (hnd : g.nodes[v]? = some nd) : ∀ e ∈ edgesIn g v, e.w.input < nd.nInputs := by
  intro e he
  obtain ⟨hmem, hdst⟩ := (mem_edgesIn g v e).mp he
  have h2 := (hWF e hmem).2
  rw [hdst] at h2
  simpa [nInputsD, hnd] using h2

/-- Master correctness theorem for `push_eval_steps` on a well-formed
graph: the traversal succeeds, the entry node is the first step, the
emitted nodes are exactly the nodes reachable from the entry node with
no duplicates, and every step satisfies `StepOK`. -/
theorem pushEvalSteps_master (g : Graph) (n : Nat) (hWF : WellFormed g)
    (hn : n < g.nodes.length) :
    ∃ s₀ rest, pushEvalSteps g n = some (s₀ :: rest) ∧ s₀.node = n ∧
      ((s₀ :: rest).map EvalStep.node).Nodup ∧
      (∀ m, m ∈ (s₀ :: rest).map EvalStep.node ↔ Reachable g n m) ∧
      (∀ s ∈ s₀ :: rest, StepOK g s) := by
  obtain ⟨nd, hnd⟩ : ∃ nd, g.nodes[n]? = some nd := ⟨g.nodes[n], List.getElem?_eq_getElem hn⟩
  obtain ⟨args, hargs, halen⟩ :=
    buildArgs_ok g n nd.nInputs (edgesIn_input_lt g hWF n nd hnd)
  have hd0 : ∀ v, discGet (List.replicate g.nodes.length false) v = false :=
    discGet_replicate g.nodes.length
  have h0 : pushEvalSteps g n =
      dfsLoop g ((g.nodes.length * g.edges.length + g.nodes.length + 1) + 1)
        [n] (List.replicate g.nodes.length false) [] := rfl
  have hstep := dfsLoop_cons_undisc g
    (g.nodes.length * g.edges.length + g.nodes.length + 1) n []
    (List.replicate g.nodes.length false) [] (hd0 n) nd hnd args hargs
  have hdl1 : ((List.replicate g.nodes.length false).set n true).length =
      g.nodes.length := by simp
  have hndl : n < (List.replicate g.nodes.length false).length := by simpa using hn
  have hI1 : ∀ u, discGet ((List.replicate g.nodes.length false).set n true) u = true ↔
      u ∈ ([(⟨n, args⟩ : EvalStep)].map EvalStep.node) := by
    intro u
    by_cases hun : u = n
    · subst hun
      simp [discGet_set_self _ u hndl]
    · rw [discGet_set_of_ne _ (fun h => hun h.symm)]
      simp [hd0 u, hun]
  have hsv1 : ∀ u ∈ pushUndiscovered ((List.replicate g.nodes.length false).set n true)
      [] (neighbors g n), u < g.nodes.length := by
    intro u hu
    rcases mem_pushUndiscovered _ (neighbors g n) [] u hu with h | h
    · exact absurd h (List.not_mem_nil u)
    · obtain ⟨e, hmem, _, hdst⟩ := (mem_neighbors g n u).mp h
      exact hdst ▸ (hWF e hmem).1
  have hrs1 : ∀ u ∈ pushUndiscovered ((List.replicate g.nodes.length false).set n true)
      [] (neighbors g n), Reachable g n u := by
    intro u hu
    rcases mem_pushUndiscovered _ (neighbors g n) [] u hu with h | h
    · exact absurd h (List.not_mem_nil u)
    · exact Reachable.tail Reachable.refl ((mem_neighbors g n u).mp h)
  have hcl1 : ∀ u, discGet ((List.replicate g.nodes.length false).set n true) u = true →
      ∀ w, IsEdge g u w →
        discGet ((List.replicate g.nodes.length false).set n true) w = true ∨
          w ∈ pushUndiscovered ((List.replicate g.nodes.length false).set n true)
            [] (neighbors g n) := by
    intro u hu w hw
    by_cases hun : u = n
    · subst hun
      have hwn : w ∈ neighbors g u := (mem_neighbors g u w).mpr hw
      exact pushUndiscovered_covers _ (neighbors g u) [] w hwn
    · rw [discGet_set_of_ne _ (fun h => hun h.symm)] at hu
      rw [hd0 u] at hu
      cases hu
  have hfuel1 : (pushUndiscovered ((List.replicate g.nodes.length false).set n true)
      [] (neighbors g n)).length +
      outdegSum g ((List.replicate g.nodes.length false).set n true) + 1 ≤
      g.nodes.length * g.edges.length + g.nodes.length + 1 := by
    have hlen1 := length_pushUndiscovered
      ((List.replicate g.nodes.length false).set n true) (neighbors g n) []
    rw [length_neighbors] at hlen1
    have hsum := outdegSum_set g (List.replicate g.nodes.length false) n
      (by simp) hn (hd0 n)
    have hle := outdegSum_le g (List.replicate g.nodes.length false)
    simp only [List.length_nil] at hlen1
    omega
  obtain ⟨pre, H1, H2, H3, H4, H5, H6⟩ := dfsLoop_correct g n hWF
    (g.nodes.length * g.edges.length + g.nodes.length + 1)
    (pushUndiscovered ((List.replicate g.nodes.length false).set n true)
      [] (neighbors g n))
    ((List.replicate g.nodes.length false).set n true)
    [(⟨n, args⟩ : EvalStep)]
    hfuel1 hdl1 hsv1 hI1 (by simp) hrs1
    (by
      intro u hu
      have hun : u = n := by simpa using hu
      exact hun ▸ Reachable.refl)
    hcl1
    (by
      intro s hs
      rcases List.mem_cons.mp hs with h | h
      · exact h ▸ ⟨nd, hnd, halen, hargs⟩
      · exact absurd h (List.not_mem_nil s))
  have hrev : (pre ++ [(⟨n, args⟩ : EvalStep)]).reverse =
      (⟨n, args⟩ : EvalStep) :: pre.reverse := by simp
  refine ⟨⟨n, args⟩, pre.reverse, ?_, rfl, ?_, ?_, ?_⟩
  · rw [h0, hstep, H1, hrev]
  · rw [← hrev, List.map_reverse]
    exact List.nodup_reverse.mpr H2
  · intro m
    rw [← hrev, List.map_reverse, List.mem_reverse]
    constructor
    · exact H4 m
    · intro hm
      induction hm with
      | refl => simp [List.map_append]
      | tail _ hedge ihm => exact H5 _ ihm _ hedge
  · intro s hs
    rw [← hrev, List.mem_reverse] at hs
    exact H6 s hs

/-! Lemmas about the code synthesizer. -/

theorem patVars_stepPat (si nOut : Nat) :
    patVars (stepPat si nOut) = (List.range nOut).map (fun vi => varName si vi) := by
  by_cases h0 : nOut = 0
  · subst h0
    simp [stepPat, patVars]
  · by_cases h1 : nOut = 1
    · subst h1
      have hs : stepPat si 1 = Pat.ident (varName si 0) := by simp [stepPat]
      rw [hs]
      rfl
    · simp [stepPat, h0, h1, patVars]

theorem lvalsGet_insert (lv : LVals) (k k' : Nat × Nat) (s : String) :
    lvalsGet (lvalsInsert lv k' s) k = if k' = k then some s else lvalsGet lv k := by
  by_cases h : k' = k
  · simp [lvalsGet, lvalsInsert, List.find?, h]
  · simp [lvalsGet, lvalsInsert, List.find?, h]

theorem lvalsGet_foldInsert (node si : Nat) (k : Nat × Nat) :
    ∀ (l : List Nat) (lv : LVals),
      (lvalsGet (l.foldl (fun acc vi => lvalsInsert acc (node, vi) (varName si vi)) lv)
        k).isSome = true ↔
      (∃ vi ∈ l, k = (node, vi)) ∨ (lvalsGet lv k).isSome = true := by
  intro l
  induction l with
  | nil => intro lv; simp
  | cons vi l ih =>
    intro lv
    have hstep : (vi :: l).foldl (fun acc x => lvalsInsert acc (node, x) (varName si x)) lv =
        l.foldl (fun acc x => lvalsInsert acc (node, x) (varName si x))
          (lvalsInsert lv (node, vi) (varName si vi)) := rfl
    rw [hstep, ih]
    rw [lvalsGet_insert]
    by_cases h : (node, vi) = k
    · simp [h]
    · constructor
      · intro hc
        rcases hc with ⟨u, hu, hk⟩ | hc
        · exact Or.inl ⟨u, List.mem_cons.mpr (Or.inr hu), hk⟩
        · rw [if_neg h] at hc
          exact Or.inr hc
      · intro hc
        rcases hc with ⟨u, hu, hk⟩ | hc
        · rcases List.mem_cons.mp hu with h2 | h2
          · exact absurd (by rw [hk, h2]) h
          · exact Or.inl ⟨u, h2, hk⟩
        · exact Or.inr (by rw [if_neg h]; exact hc)

theorem lvalsGet_stepLVals (lv : LVals) (node si nOut : Nat) (src out : Nat) :
    (lvalsGet (stepLVals lv node si nOut) (src, out)).isSome = true ↔
      (src = node ∧ out < nOut) ∨ (lvalsGet lv (src, out)).isSome = true := by
  by_cases h0 : nOut = 0
  · subst h0
    simp [stepLVals]
  · by_cases h1 : nOut = 1
    · subst h1
      have hs : stepLVals lv node si 1 = lvalsInsert lv (node, 0) (varName si 0) := by
        simp [stepLVals]
      rw [hs, lvalsGet_insert]
      by_cases h : (node, 0) = (src, out)
      · have hsrc : node = src := by
          have := congrArg Prod.fst h
          simpa using this
        have hout : (0 : Nat) = out := by
          have := congrArg Prod.snd h
          simpa using this
        constructor
        · intro _
          exact Or.inl ⟨hsrc.symm, by omega⟩
        · intro _
          simp [h]
      · rw [if_neg h]
        constructor
        · exact Or.inr
        · intro hc
          rcases hc with ⟨hk1, hk2⟩ | hc
          · have hout : out = 0 := by omega
            exact absurd (by rw [hk1, hout]) h
          · exact hc
    · simp only [stepLVals, if_neg h0, if_neg h1]
      rw [lvalsGet_foldInsert]
      constructor
      · intro hc
        rcases hc with ⟨vi, hvi, hk⟩ | hc
        · have hsrc : src = node := by
            have := congrArg Prod.fst hk
            simpa using this
          have hout : out = vi := by
            have := congrArg Prod.snd hk
            simpa using this
          exact Or.inl ⟨hsrc, by rw [hout]; exact List.mem_range.mp hvi⟩
        · exact Or.inr hc
      · intro hc
        rcases hc with ⟨hk1, hk2⟩ | hc
        · exact Or.inl ⟨out, List.mem_range.mpr hk2, by rw [hk1]⟩
        · exact Or.inr hc

theorem lvalsGet_nil (k : Nat × Nat) : lvalsGet ([] : LVals) k = none := rfl

theorem inputExpr_none (lv : LVals) : inputExpr none lv = some Expr.defaultVal := rfl

theorem inputExpr_some_isSome (a : ExprInput) (lv : LVals) :
    (inputExpr (some a) lv).isSome = true ↔
      (lvalsGet lv (a.node, a.output)).isSome = true := by
  cases h : lvalsGet lv (a.node, a.output) <;> simp [inputExpr, h]

theorem collectArgs_isSome (lv : LVals) (args : List (Option ExprInput)) :
    (collectArgs lv args).isSome = true ↔ ∀ a ∈ args, (inputExpr a lv).isSome = true := by
  induction args with
  | nil => simp [collectArgs]
  | cons a args ih =>
    cases h : inputExpr a lv with
    | none =>
      simp only [collectArgs, h, Option.none_bind]
      constructor
      · intro hc
        cases hc
      · intro hc
        have := hc a (by simp)
        rw [h] at this
        cases this
    | some e =>
      simp only [collectArgs, h, Option.some_bind]
      constructor
      · intro hc
        intro a' ha'
        rcases List.mem_cons.mp ha' with h2 | h2
        · rw [h2, h]; rfl
        · cases hrest : collectArgs lv args with
          | none => rw [hrest] at hc; cases hc
          | some => exact (ih.mp (by rw [hrest]; rfl)) a' h2
      · intro hc
        have hrest := ih.mpr (fun a' ha' => hc a' (by simp [ha']))
        cases h2 : collectArgs lv args with
        | none => rw [h2] at hrest; cases hrest
        | some es => simp [h2]

/-- Shape of the synthesized statement list: one statement per step, in
step order, whose pattern binds one deterministically named variable per
output of that step's node. -/
theorem synthLoop_shape (g : Graph) :
    ∀ (todo : List EvalStep) (si : Nat) (lv : LVals) (stmts : List Stmt),
      synthLoop g todo si lv = some stmts →
      stmts.length = todo.length ∧
      ∀ j (hj : j < todo.length) (hj2 : j < stmts.length),
        ∃ nd, g.nodes[(todo.get ⟨j, hj⟩).node]? = some nd ∧
          patVars ((stmts.get ⟨j, hj2⟩).pat) =
            (List.range nd.nOutputs).map (fun vi => varName (si + j) vi) := by
  intro todo
  induction todo with
  | nil =>
    intro si lv stmts hrun
    cases hrun
    exact ⟨rfl, fun j hj => absurd hj (by simp)⟩
  | cons step rest ih =>
    intro si lv stmts hrun
    cases hnd : g.nodes[step.node]? with
    | none =>
      simp only [synthLoop, hnd] at hrun
      exact Option.noConfusion hrun
    | some nd =>
      cases hca : collectArgs lv step.args with
      | none =>
        simp only [synthLoop, hnd, hca] at hrun
        exact Option.noConfusion hrun
      | some argExprs =>
        simp only [synthLoop, hnd, hca] at hrun
        cases hrest : synthLoop g rest (si + 1) (stepLVals lv step.node si nd.nOutputs) with
        | none =>
          rw [hrest] at hrun
          cases hrun
        | some stmts' =>
          rw [hrest] at hrun
          have hstmts : stmts = ⟨stepPat si nd.nOutputs, nd.exprFn argExprs⟩ :: stmts' := by
            cases hrun
            rfl
          subst hstmts
          obtain ⟨hlen, hidx⟩ := ih (si + 1) _ stmts' hrest
          refine ⟨by simp [hlen], ?_⟩
          intro j hj hj2
          match j with
          | 0 =>
            refine ⟨nd, hnd, ?_⟩
            have : si + 0 = si := rfl
            rw [this]
            exact patVars_stepPat si nd.nOutputs
          | j + 1 =>
            have hj' : j < rest.length := by simpa using hj
            have hj2' : j < stmts'.length := by simpa using hj2
            obtain ⟨nd', hnd', hpat⟩ := hidx j hj' hj2'
            refine ⟨nd', hnd', ?_⟩
            have harith : si + 1 + j = si + (j + 1) := by omega
            rw [← harith]
            exact hpat

/-- Synthesis succeeds exactly when every resolved slot refers to an
output recorded by an earlier step (with a valid output index). -/
theorem synthLoop_isSome_iff (g : Graph) :
    ∀ (todo done : List EvalStep) (si : Nat) (lv : LVals),
      (∀ s ∈ todo, ∃ nd, g.nodes[s.node]? = some nd) →
      (∀ src out, (lvalsGet lv (src, out)).isSome = true ↔
        ∃ t ∈ done, t.node = src ∧
          ∃ nd, g.nodes[src]? = some nd ∧ out < nd.nOutputs) →
      ((synthLoop g todo si lv).isSome = true ↔ ResolvableFrom g done todo) := by
  intro todo
  induction todo with
  | nil =>
    intro done si lv _ _
    simp [synthLoop, ResolvableFrom]
  | cons s rest ih =>
    intro done si lv hvalid hkey
    obtain ⟨nd, hnd⟩ := hvalid s (by simp)
    have hslot : ∀ a : ExprInput, ((inputExpr (some a) lv).isSome = true ↔
        ∃ t ∈ done, t.node = a.node ∧
          ∃ nd', g.nodes[a.node]? = some nd' ∧ a.output < nd'.nOutputs) := by
      intro a
      rw [inputExpr_some_isSome]
      exact hkey a.node a.output
    have hfirst : ((collectArgs lv s.args).isSome = true ↔
        ∀ a : ExprInput, some a ∈ s.args →
          ∃ t ∈ done, t.node = a.node ∧
            ∃ nd', g.nodes[a.node]? = some nd' ∧ a.output < nd'.nOutputs) := by
      rw [collectArgs_isSome]
      constructor
      · intro hall a ha
        exact (hslot a).mp (hall (some a) ha)
      · intro hall a ha
        cases a with
        | none => simp [inputExpr_none]
        | some a' => exact (hslot a').mpr (hall a' ha)
    have hkey' : ∀ src out,
        (lvalsGet (stepLVals lv s.node si nd.nOutputs) (src, out)).isSome = true ↔
        ∃ t ∈ done ++ [s], t.node = src ∧
          ∃ nd', g.nodes[src]? = some nd' ∧ out < nd'.nOutputs := by
      intro src out
      rw [lvalsGet_stepLVals]
      constructor
      · intro hc
        rcases hc with ⟨hsrc, hout⟩ | hc
        · refine ⟨s, by simp, hsrc.symm, nd, ?_, hout⟩
          rw [hsrc]
          exact hnd
        · obtain ⟨t, ht, hts, nd', hnd', hout⟩ := (hkey src out).mp hc
          exact ⟨t, by simp [ht], hts, nd', hnd', hout⟩
      · rintro ⟨t, ht, hts, nd', hnd', hout⟩
        rcases List.mem_append.mp ht with ht | ht
        · exact Or.inr ((hkey src out).mpr ⟨t, ht, hts, nd', hnd', hout⟩)
        · have hts' : t = s := by simpa using ht
          subst hts'
          have hsrc : src = t.node := hts.symm
          have hndeq : nd' = nd := by
            rw [hsrc] at hnd'
            rw [hnd'] at hnd
            cases hnd
            rfl
          refine Or.inl ⟨hsrc, ?_⟩
          rw [← hndeq]
          exact hout
    have hR : ResolvableFrom g done (s :: rest) =
        ((∀ a : ExprInput, some a ∈ s.args →
          ∃ t ∈ done, t.node = a.node ∧
            ∃ nd', g.nodes[a.node]? = some nd' ∧ a.output < nd'.nOutputs) ∧
          ResolvableFrom g (done ++ [s]) rest) := rfl
    rw [hR]
    cases hca : collectArgs lv s.args with
    | none =>
      have hfail : synthLoop g (s :: rest) si lv = none := by
        simp only [synthLoop, hnd, hca]
      rw [hfail]
      constructor
      · intro hc
        cases hc
      · rintro ⟨hc, _⟩
        have hx : (collectArgs lv s.args).isSome = true := hfirst.mpr hc
        rw [hca] at hx
        cases hx
    | some argExprs =>
      have hcargs : (collectArgs lv s.args).isSome = true := by rw [hca]; rfl
      have hrest := ih (done ++ [s]) (si + 1) (stepLVals lv s.node si nd.nOutputs)
        (fun t ht => hvalid t (by simp [ht])) hkey'
      have hunf : synthLoop g (s :: rest) si lv =
          (synthLoop g rest (si + 1) (stepLVals lv s.node si nd.nOutputs)).map
            (fun stmts => ⟨stepPat si nd.nOutputs, nd.exprFn argExprs⟩ :: stmts) := by
        simp only [synthLoop, hnd, hca]
      have hiff : (synthLoop g (s :: rest) si lv).isSome = true ↔
          (synthLoop g rest (si + 1) (stepLVals lv s.node si nd.nOutputs)).isSome = true := by
        rw [hunf]
        cases synthLoop g rest (si + 1) (stepLVals lv s.node si nd.nOutputs) with
        | none => simp
        | some => simp
      rw [hiff, hrest]
      constructor
      · intro hc
        exact ⟨hfirst.mp hcargs, hc⟩
      · rintro ⟨_, hc⟩
        exact hc

/-! Lemmas about the nested-graph adapter. -/

namespace Core

theorem stateTypes_ok (g : CGraph) :
    ∀ l : List Nat, (∀ id ∈ l, (expectNodeStateType g id).isSome = true) →
      ∃ tys, stateTypes g l = some tys ∧ tys.length = l.length := by
  intro l
  induction l with
  | nil => intro _; exact ⟨[], rfl, rfl⟩
  | cons n rest ih =>
    intro h
    obtain ⟨ty, hty⟩ := Option.isSome_iff_exists.mp (h n (by simp))
    obtain ⟨tys, htys, hlen⟩ := ih (fun id hid => h id (by simp [hid]))
    refine ⟨ty :: tys, ?_, by simp [hlen]⟩
    simp [stateTypes, hty, htys]

theorem sigFnInputsFrom_ok (g : CGraph) :
    ∀ (inlets : List Nat) (k : Nat),
      (∀ id ∈ inlets, (expectNodeStateType g id).isSome = true) →
      ∃ ps, sigFnInputsFrom g k inlets = some ps ∧
        ps.length = inlets.length ∧
        ps.map Prod.fst =
          (List.range inlets.length).map (fun i => "inlet" ++ toString (k + i)) := by
  intro inlets
  induction inlets with
  | nil => intro k _; exact ⟨[], rfl, rfl, rfl⟩
  | cons n rest ih =>
    intro k h
    obtain ⟨ty, hty⟩ := Option.isSome_iff_exists.mp (h n (by simp))
    obtain ⟨ps, hps, hlen, hnames⟩ := ih (k + 1) (fun id hid => h id (by simp [hid]))
    refine ⟨("inlet" ++ toString k, ty) :: ps, ?_, by simp [hlen], ?_⟩
    · simp [sigFnInputsFrom, hty, hps]
    · have hrange : List.range (rest.length + 1) =
          0 :: (List.range rest.length).map Nat.succ := List.range_succ_eq_map rest.length
      simp only [List.length_cons, hrange, List.map_cons, List.map_map]
      refine List.cons_eq_cons.mpr ⟨by simp, ?_⟩
      rw [hnames]
      apply List.map_congr_left
      intro i _
      show "inlet" ++ toString (k + 1 + i) = "inlet" ++ toString (k + Nat.succ i)
      have harith : k + 1 + i = k + Nat.succ i := by omega
      rw [harith]

/-- Decoding inverts encoding for id lists. -/
theorem decodeList_map {Id : Type} (decId : Value → Option Id) (encId : Id → Value)
    (h : ∀ i, decId (encId i) = some i) :
    ∀ l : List Id, decodeList decId (l.map encId) = some l := by
  intro l
  induction l with
  | nil => rfl
  | cons i l ih => simp [decodeList, h i, ih]

end Core

/-- When the start node does not exist, the traversal panics
immediately. -/
theorem pushEvalSteps_invalid (g : Graph) (n : Nat) (hn : g.nodes.length ≤ n) :
    pushEvalSteps g n = none := by
  have h0 : pushEvalSteps g n =
      dfsLoop g ((g.nodes.length * g.edges.length + g.nodes.length + 1) + 1)
        [n] (List.replicate g.nodes.length false) [] := rfl
  rw [h0]
  simp [dfsLoop, discGet_replicate, List.getElem?_eq_none hn]

/-! Claim theorems. -/

/-- C1 (code bug evaluation): in `dupWeightGraph`, output 0 of node 0 has
two outgoing edges (fan-out of 2), yet the traversal flags both resulting
argument slots `requires_clone = false` — the generated code would move
the produced value twice.  The clone-flag law demands exactly one `false`
and one `true` flag.  The cause is the `pw == w` comparison in
`push_eval_steps`, which compares edge weights, so the two equal-weight
edges are conflated and `connection_ix` ends at the last matching index
for both. -/
theorem c1_clone_flag_code_bug :
    pushEvalSteps dupWeightGraph 0 =
      some [⟨0, []⟩, ⟨1, [some ⟨0, 0, false⟩]⟩, ⟨2, [some ⟨0, 0, false⟩]⟩] ∧
    (edgesOut dupWeightGraph 0).length = 2 ∧
    cloneFlagCount dupWeightGraph 0 0 0 true = 0 ∧
    cloneFlagCount dupWeightGraph 0 0 0 false = 2 := by
  refine ⟨rfl, rfl, rfl, rfl⟩

/-- C3 (counterexample): the traversal panics (returns `none`) on a graph
whose node 1 declares 0 inputs but has an incoming edge — the
out-of-range slot write `args[0]` aborts instead of yielding an empty
argument list. -/
theorem c3_counterexample :
    pushEvalSteps badInputGraph 0 = none ∧
    (badInputGraph.nodes[1]?).map GNode.nInputs = some 0 ∧
    badInputGraph.edges = [⟨0, 1, ⟨0, 0⟩⟩] := by
  refine ⟨rfl, rfl, rfl⟩

/-- C3 (amended): in a well-formed graph (no incorrectly attached edges),
every step evaluating a node with 0 declared inputs carries an empty
argument-slot list; an incorrectly attached incoming edge instead makes
the traversal panic, as the counterexample shows. -/
theorem c3_zero_input_empty_args (g : Graph) (n : Nat)
    (hWF : WellFormed g) (hn : n < g.nodes.length) :
    ∃ steps, pushEvalSteps g n = some steps ∧
      ∀ s ∈ steps, ∀ nd, g.nodes[s.node]? = some nd → nd.nInputs = 0 →
        s.args = [] := by
  obtain ⟨s₀, rest, hrun, _, _, _, hok⟩ := pushEvalSteps_master g n hWF hn
  refine ⟨s₀ :: rest, hrun, ?_⟩
  intro s hs nd hnd h0
  obtain ⟨nd', hnd', hlen, _⟩ := hok s hs
  rw [hnd] at hnd'
  cases hnd'
  rw [h0] at hlen
  exact List.length_eq_zero.mp hlen

/-- C3 witness. -/
theorem c3_zero_input_empty_args_witness :
    ∃ steps, pushEvalSteps scenarioA 0 = some steps ∧
      ∀ s ∈ steps, ∀ nd, scenarioA.nodes[s.node]? = some nd → nd.nInputs = 0 →
        s.args = [] :=
  c3_zero_input_empty_args scenarioA 0 (by decide) (by decide)

/-- C5: on a well-formed graph, the traversal from `n` succeeds, every
node reachable from `n` along edge direction appears in the step list
exactly once, and no node appears more than once. -/
theorem c5_reachable_exactly_once (g : Graph) (n : Nat)
    (hWF : WellFormed g) (hn : n < g.nodes.length) :
    ∃ steps, pushEvalSteps g n = some steps ∧
      (∀ m, Reachable g n m → (steps.map EvalStep.node).count m = 1) ∧
      (∀ m, (steps.map EvalStep.node).count m ≤ 1) := by
  obtain ⟨s₀, rest, hrun, _, hnd, hiff, _⟩ := pushEvalSteps_master g n hWF hn
  refine ⟨s₀ :: rest, hrun, ?_, ?_⟩
  · intro m hm
    exact List.count_eq_one_of_mem hnd ((hiff m).mpr hm)
  · intro m
    exact List.nodup_iff_count_le_one.mp hnd m

/-- C5 witness. -/
theorem c5_reachable_exactly_once_witness :
    ∃ steps, pushEvalSteps scenarioA 0 = some steps ∧
      (∀ m, Reachable scenarioA 0 m → (steps.map EvalStep.node).count m = 1) ∧
      (∀ m, (steps.map EvalStep.node).count m ≤ 1) :=
  c5_reachable_exactly_once scenarioA 0 (by decide) (by decide)

/-- C6: on a well-formed graph (every edge's input port index within the
destination's declared arity), every emitted step's argument-slot count
equals the declared input arity of the node it evaluates. -/
theorem c6_slot_count_is_arity (g : Graph) (n : Nat)
    (hWF : WellFormed g) (hn : n < g.nodes.length) :
    ∃ steps, pushEvalSteps g n = some steps ∧
      ∀ s ∈ steps, ∃ nd, g.nodes[s.node]? = some nd ∧
        s.args.length = nd.nInputs := by
  obtain ⟨s₀, rest, hrun, _, _, _, hok⟩ := pushEvalSteps_master g n hWF hn
  refine ⟨s₀ :: rest, hrun, ?_⟩
  intro s hs
  obtain ⟨nd, hnd, hlen, _⟩ := hok s hs
  exact ⟨nd, hnd, hlen⟩

/-- C6 witness. -/
theorem c6_slot_count_is_arity_witness :
    ∃ steps, pushEvalSteps scenarioA 0 = some steps ∧
      ∀ s ∈ steps, ∃ nd, scenarioA.nodes[s.node]? = some nd ∧
        s.args.length = nd.nInputs :=
  c6_slot_count_is_arity scenarioA 0 (by decide) (by decide)

/-- C10: on a well-formed graph, the traversal from a present node `n`
returns a non-empty step list whose first step evaluates `n` itself
(petgraph `Dfs` discovery order, not post-order). -/
theorem c10_entry_node_first (g : Graph) (n : Nat)
    (hWF : WellFormed g) (hn : n < g.nodes.length) :
    ∃ s rest, pushEvalSteps g n = some (s :: rest) ∧ s.node = n := by
  obtain ⟨s₀, rest, hrun, hnode, _, _, _⟩ := pushEvalSteps_master g n hWF hn
  exact ⟨s₀, rest, hrun, hnode⟩

/-- C10 witness. -/
theorem c10_entry_node_first_witness :
    ∃ s rest, pushEvalSteps scenarioA 0 = some (s :: rest) ∧ s.node = 0 :=
  c10_entry_node_first scenarioA 0 (by decide) (by decide)

/-- C4 (counterexample): `push_eval_fn` copies the descriptor's whole
declaration into the assembled function, so a descriptor declaring one
parameter yields a function with one parameter, not an empty parameter
list. -/
theorem c4_counterexample :
    (pushEvalFn emptyGraph paramPush []).map (fun f => f.decl.inputs) =
      some ["x: i32"] ∧
    some ["x: i32"] ≠ some ([] : List String) := by
  refine ⟨rfl, by decide⟩

/-- C4 (amended): the function assembled by `push_eval_fn` takes its
name, attributes and declaration (hence its parameter list — empty
exactly when the descriptor declares no parameters) verbatim from the
push-entry descriptor, and its body holds exactly one binding statement
per step, in step order, whose pattern binds one deterministically named
variable per output of that step's node. -/
theorem c4_assembled_function_shape (g : Graph) (pe : PushEval)
    (steps : List EvalStep) (f : ItemFn) (h : pushEvalFn g pe steps = some f) :
    f.name = pe.fnName ∧ f.attrs = pe.fnAttrs ∧ f.decl = pe.fnDecl ∧
    f.block.length = steps.length ∧
    ∀ j (hj : j < steps.length) (hj2 : j < f.block.length),
      ∃ nd, g.nodes[(steps.get ⟨j, hj⟩).node]? = some nd ∧
        patVars ((f.block.get ⟨j, hj2⟩).pat) =
          (List.range nd.nOutputs).map (fun vi => varName j vi) := by
  cases hsl : synthLoop g steps 0 [] with
  | none =>
    rw [pushEvalFn, hsl] at h
    cases h
  | some stmts =>
    rw [pushEvalFn, hsl] at h
    cases h
    obtain ⟨hlen, hidx⟩ := synthLoop_shape g steps 0 [] stmts hsl
    refine ⟨rfl, rfl, rfl, hlen, ?_⟩
    intro j hj hj2
    obtain ⟨nd, hnd, hpat⟩ := hidx j hj hj2
    refine ⟨nd, hnd, ?_⟩
    have h0j : 0 + j = j := by omega
    rw [h0j] at hpat
    exact hpat

/-- C4 witness. -/
theorem c4_assembled_function_shape_witness :
    ∃ f, pushEvalFn scenarioA plainPush [⟨0, []⟩] = some f ∧
      f.name = plainPush.fnName ∧ f.decl = plainPush.fnDecl ∧
      f.block.length = 1 := by
  obtain ⟨f, hf⟩ : ∃ f, pushEvalFn scenarioA plainPush [⟨0, []⟩] = some f := ⟨_, rfl⟩
  obtain ⟨h1, _, h3, h4, _⟩ := c4_assembled_function_shape scenarioA plainPush [⟨0, []⟩] f hf
  exact ⟨f, hf, h1, h3, h4⟩

/-- C7: slot resolution during synthesis — an unconnected (`None`) slot
yields the default-value expression; a resolved slot with a recorded
binding yields a plain reference when `requires_clone` is unset and a
clone expression when set; and during traversal an input with no incoming
edge is left as an unresolved `None` slot (resolution happens only at
synthesis time). -/
theorem c7_slot_resolution :
    (∀ lv : LVals, inputExpr none lv = some Expr.defaultVal) ∧
    (∀ (a : ExprInput) (lv : LVals) (i : String),
      lvalsGet lv (a.node, a.output) = some i →
      inputExpr (some a) lv =
        some (if a.requiresClone then Expr.blockClone i else Expr.blockRef i)) ∧
    (∀ (g : Graph) (n : Nat), WellFormed g → ∀ steps, pushEvalSteps g n = some steps →
      ∀ s ∈ steps, ∀ nd, g.nodes[s.node]? = some nd →
        ∀ i, i < nd.nInputs → (∀ e ∈ edgesIn g s.node, e.w.input ≠ i) →
          s.args[i]? = some none) := by
  refine ⟨fun _ => rfl, ?_, ?_⟩
  · intro a lv i h
    rw [inputExpr, h]
  · intro g n hWF steps hrun s hs nd hnd i hi hno
    have hn : n < g.nodes.length := by
      by_contra hcon
      rw [pushEvalSteps_invalid g n (by omega)] at hrun
      cases hrun
    obtain ⟨s₀, rest, hrun', _, _, _, hok⟩ := pushEvalSteps_master g n hWF hn
    rw [hrun] at hrun'
    cases hrun'
    obtain ⟨nd', hnd', _, hbuild⟩ := hok s hs
    rw [hnd] at hnd'
    cases hnd'
    exact buildArgs_unconnected g s.node nd.nInputs s.args i hbuild hi hno

/-- C7 witness. -/
theorem c7_slot_resolution_witness :
    inputExpr none [] = some Expr.defaultVal ∧
    inputExpr (some ⟨0, 0, true⟩) [((0, 0), "x")] = some (Expr.blockClone "x") ∧
    inputExpr (some ⟨0, 0, false⟩) [((0, 0), "x")] = some (Expr.blockRef "x") := by
  refine ⟨c7_slot_resolution.1 [], ?_, ?_⟩
  · have h := c7_slot_resolution.2.1 ⟨0, 0, true⟩ [((0, 0), "x")] "x" rfl
    simpa using h
  · have h := c7_slot_resolution.2.1 ⟨0, 0, false⟩ [((0, 0), "x")] "x" rfl
    simpa using h

/-- C8 (counterexample): the source-step-precedes precondition holds for
`badOutputSteps` (the only resolved slot names node 0, evaluated by the
first step), yet synthesis fails: the slot asks for output index 5 of a
1-output node, for which no variable was recorded.  The failure branch is
therefore reachable under the claim's stated precondition. -/
theorem c8_counterexample :
    sourcesPrecede [] badOutputSteps = true ∧
    pushEvalFn scenarioA plainPush badOutputSteps = none := by
  refine ⟨rfl, rfl⟩

/-- C8 (amended): given steps over existing nodes, synthesis succeeds
exactly when every resolved slot refers to an output recorded by an
earlier step — i.e. the source step precedes the consuming step AND the
referenced output index lies below the source node's declared output
arity.  In particular a resolved slot with no recorded binding always
aborts the run (`none`), never silently skipped or defaulted. -/
theorem c8_missing_binding_fatal (g : Graph) (pe : PushEval) (steps : List EvalStep)
    (hvalid : ∀ s ∈ steps, s.node < g.nodes.length) :
    (pushEvalFn g pe steps).isSome = true ↔ ResolvableFrom g [] steps := by
  have hvalid' : ∀ s ∈ steps, ∃ nd, g.nodes[s.node]? = some nd := by
    intro s hs
    have hlt := hvalid s hs
    exact ⟨g.nodes[s.node], List.getElem?_eq_getElem hlt⟩
  have hkey : ∀ src out, (lvalsGet ([] : LVals) (src, out)).isSome = true ↔
      ∃ t ∈ ([] : List EvalStep), t.node = src ∧
        ∃ nd, g.nodes[src]? = some nd ∧ out < nd.nOutputs := by
    intro src out
    simp [lvalsGet_nil]
  have hiff := synthLoop_isSome_iff g steps [] 0 [] hvalid' hkey
  rw [← hiff]
  cases hsl : synthLoop g steps 0 [] with
  | none => simp [pushEvalFn, hsl]
  | some stmts => simp [pushEvalFn, hsl]

/-- C8 witness. -/
theorem c8_missing_binding_fatal_witness :
    (pushEvalFn scenarioA plainPush [⟨0, []⟩, ⟨2, [some ⟨0, 0, false⟩]⟩]).isSome = true ↔
      ResolvableFrom scenarioA [] [⟨0, []⟩, ⟨2, [some ⟨0, 0, false⟩]⟩] :=
  c8_missing_binding_fatal scenarioA plainPush _ (by decide)

/-- C2 (counterexample): for the one-inlet one-outlet `scenarioB` graph
node, the function stored in the evaluator has parameter list
`[inlet0]` only — `evaluator` pops the trailing state parameter
(`sig.inputs.pop()`) before assembling the function item, so the stored
signature does not end with a state parameter as claimed. -/
theorem c2_counterexample :
    evaluatorParamNames scenarioB = some ["inlet0"] ∧
    some ["inlet0"] ≠ some ["inlet0", "state"] := by
  refine ⟨rfl, by decide⟩

/-- C2 (amended): the signature synthesized by
`graph_node_evaluator_signature` (and handed to the body generator) has
one parameter per inlet, sequentially named `inlet0, inlet1, ...`,
followed by a trailing `state` parameter, and a return type that is void
for 0 outlets, the single outlet's state type for 1, and a tuple for
more; the function item stored in the returned evaluator then carries
that signature with the trailing state parameter removed. -/
theorem c2_evaluator_signature (gn : Core.GraphNode Core.CGraph Nat)
    (hin : ∀ id ∈ gn.inlets, (Core.expectNodeStateType gn.graph id).isSome = true)
    (hout : ∀ id ∈ gn.outlets, (Core.expectNodeStateType gn.graph id).isSome = true) :
    ∃ sig, Core.graphNodeEvaluatorSignature gn.graph gn.graph.stateTy
        gn.inlets gn.outlets = some sig ∧
      sig.inputs.map Prod.fst =
        ((List.range gn.inlets.length).map (fun i => "inlet" ++ toString i)) ++
          ["state"] ∧
      (gn.outlets = [] → sig.output = Core.RetTy.void) ∧
      (∀ o, gn.outlets = [o] → ∃ ty, Core.expectNodeStateType gn.graph o = some ty ∧
        sig.output = Core.RetTy.single ty) ∧
      (2 ≤ gn.outlets.length → ∃ tys, Core.stateTypes gn.graph gn.outlets = some tys ∧
        sig.output = Core.RetTy.tuple tys) ∧
      Core.evaluator gn = some (Core.Evaluator.fnEv
        { sig := { sig with inputs := sig.inputs.dropLast }
          block := gn.graph.evalBlock gn.inlets gn.outlets sig }) ∧
      (sig.inputs.dropLast).map Prod.fst =
        (List.range gn.inlets.length).map (fun i => "inlet" ++ toString i) := by
  obtain ⟨ps, hps, hpslen, hnames⟩ := Core.sigFnInputsFrom_ok gn.graph gn.inlets 0 hin
  have hnames0 : ps.map Prod.fst =
      (List.range gn.inlets.length).map (fun i => "inlet" ++ toString i) := by
    rw [hnames]
    apply List.map_congr_left
    intro i _
    show "inlet" ++ toString (0 + i) = "inlet" ++ toString i
    have h0i : 0 + i = i := by omega
    rw [h0i]
  have hret : ∃ rt, Core.sigFnOutput gn.graph gn.outlets = some rt ∧
      (gn.outlets = [] → rt = Core.RetTy.void) ∧
      (∀ o, gn.outlets = [o] → ∃ ty, Core.expectNodeStateType gn.graph o = some ty ∧
        rt = Core.RetTy.single ty) ∧
      (2 ≤ gn.outlets.length → ∃ tys, Core.stateTypes gn.graph gn.outlets = some tys ∧
        rt = Core.RetTy.tuple tys) := by
    cases houts : gn.outlets with
    | nil =>
      refine ⟨Core.RetTy.void, rfl, fun _ => rfl, ?_, ?_⟩
      · intro o h
        simp at h
      · intro h
        simp at h
    | cons o rest =>
      cases rest with
      | nil =>
        obtain ⟨ty, hty⟩ := Option.isSome_iff_exists.mp (hout o (by simp [houts]))
        refine ⟨Core.RetTy.single ty, ?_, ?_, ?_, ?_⟩
        · simp [Core.sigFnOutput, hty]
        · intro h
          simp at h
        · intro o' h
          have ho' : o' = o := by
            have hoo : o = o' := by simpa using h
            exact hoo.symm
          subst ho'
          exact ⟨ty, hty, rfl⟩
        · intro h
          simp at h
      | cons o2 rest2 =>
        obtain ⟨tys, htys, _⟩ := Core.stateTypes_ok gn.graph (o :: o2 :: rest2)
          (by
            intro id hid
            apply hout
            rw [houts]
            exact hid)
        refine ⟨Core.RetTy.tuple tys, ?_, ?_, ?_, ?_⟩
        · simp [Core.sigFnOutput, htys]
        · intro h
          simp at h
        · intro o' h
          simp at h
        · intro _
          exact ⟨tys, htys, rfl⟩
  obtain ⟨rt, hrt, hvoid, hsingle, htuple⟩ := hret
  have hsig : Core.graphNodeEvaluatorSignature gn.graph gn.graph.stateTy
      gn.inlets gn.outlets =
      some { ident := "graph_node_evaluator_fn"
             inputs := ps ++ [("state", gn.graph.stateTy)]
             output := rt } := by
    rw [Core.graphNodeEvaluatorSignature]
    rw [show Core.sigFnInputs gn.graph gn.inlets = some ps from hps]
    rw [hrt]
    rfl
  refine ⟨_, hsig, ?_, ?_, ?_, ?_, ?_, ?_⟩
  · show (ps ++ [("state", gn.graph.stateTy)]).map Prod.fst = _
    rw [List.map_append, hnames0]
    rfl
  · intro h
    exact hvoid h
  · intro o h
    exact hsingle o h
  · intro h
    exact htuple h
  · rw [Core.evaluator, hsig]
    rfl
  · show ((ps ++ [("state", gn.graph.stateTy)]).dropLast).map Prod.fst = _
    rw [List.dropLast_concat, hnames0]

/-- C2 witness. -/
theorem c2_evaluator_signature_witness :
    ∃ sig, Core.graphNodeEvaluatorSignature scenarioB.graph scenarioB.graph.stateTy
        scenarioB.inlets scenarioB.outlets = some sig ∧
      sig.inputs.map Prod.fst =
        ((List.range scenarioB.inlets.length).map (fun i => "inlet" ++ toString i)) ++
          ["state"] ∧
      (scenarioB.outlets = [] → sig.output = Core.RetTy.void) ∧
      (∀ o, scenarioB.outlets = [o] → ∃ ty,
        Core.expectNodeStateType scenarioB.graph o = some ty ∧
        sig.output = Core.RetTy.single ty) ∧
      (2 ≤ scenarioB.outlets.length → ∃ tys,
        Core.stateTypes scenarioB.graph scenarioB.outlets = some tys ∧
        sig.output = Core.RetTy.tuple tys) ∧
      Core.evaluator scenarioB = some (Core.Evaluator.fnEv
        { sig := { sig with inputs := sig.inputs.dropLast }
          block := scenarioB.graph.evalBlock scenarioB.inlets scenarioB.outlets sig }) ∧
      (sig.inputs.dropLast).map Prod.fst =
        (List.range scenarioB.inlets.length).map (fun i => "inlet" ++ toString i) :=
  c2_evaluator_signature scenarioB (by decide) (by decide)

/-- C9: deserializing the serialization of a `GraphNode` yields the
original `GraphNode` — in particular the `inlets` and `outlets` lists are
reproduced with their positional ordering exactly preserved — provided
the component codecs for the inner graph and the node ids invert each
other. -/
theorem c9_roundtrip {G Id : Type} (encG : G → Core.Value) (decG : Core.Value → Option G)
    (encId : Id → Core.Value) (decId : Core.Value → Option Id)
    (hG : ∀ x, decG (encG x) = some x) (hId : ∀ i, decId (encId i) = some i)
    (gn : Core.GraphNode G Id) :
    Core.deserializeGraphNode decG decId (Core.serializeGraphNode encG encId gn) =
      some gn := by
  have hIns := Core.decodeList_map decId encId hId gn.inlets
  have hOuts := Core.decodeList_map decId encId hId gn.outlets
  simp [Core.serializeGraphNode, Core.deserializeGraphNode, Core.visitMapFields,
    Core.decodeIdList, hG, hIns, hOuts]

/-- C9 witness. -/
theorem c9_roundtrip_witness :
    Core.deserializeGraphNode decNat decNat
        (Core.serializeGraphNode Core.Value.vnat Core.Value.vnat
          (⟨5, [1, 2], [3]⟩ : Core.GraphNode Nat Nat)) =
      some ⟨5, [1, 2], [3]⟩ :=
  c9_roundtrip Core.Value.vnat decNat Core.Value.vnat decNat
    (fun _ => rfl) (fun _ => rfl) ⟨5, [1, 2], [3]⟩

end Gantz
